import Mathlib

/-!
Verification of the templated document synthesis and guided field-completion
pipeline of the techpack-ai repository: the placeholder extractor, the
field-completion state machine (submit / skip / completion effect), the stream
ingestor's visibility rule, the version-navigation actions, the
bill-of-materials recoverer, and the analyzeImage tool's error branch.

Each definition is a shallow embedding of the corresponding TypeScript
function; names follow the source where Lean allows it.  JavaScript strings
are modelled as Lean `String` (code-point based; all inputs of interest are
ASCII).  Recursions that are not structural use an explicit fuel argument
initialised to the input length, so that every definition evaluates by kernel
reduction.
-/

/-- Substring test on character lists: `containsList hay ned` iff `ned` occurs
contiguously inside `hay` (also true when `ned` is empty). -/
def containsList (hay ned : List Char) : Bool :=
  match hay with
  | [] => ned.isEmpty
  | _ :: t => ned.isPrefixOf hay || containsList t ned

/-- JavaScript `a.includes(b)`: `b` occurs as a contiguous substring of `a`. -/
def jsIncludes (a b : String) : Bool :=
  containsList a.toList b.toList

/-- JavaScript `a.startsWith(b)`. -/
def jsStartsWith (a b : String) : Bool :=
  b.toList.isPrefixOf a.toList

/-- Whitespace removal at both ends of a character list. -/
def trimList (cs : List Char) : List Char :=
  ((cs.dropWhile Char.isWhitespace).reverse.dropWhile Char.isWhitespace).reverse

/-- JavaScript `s.trim()` (whitespace is judged per character, which agrees
with JavaScript on the ASCII inputs of interest). -/
def jsTrim (s : String) : String :=
  String.mk (trimList s.toList)

/-- JavaScript `s.toLowerCase()` (ASCII case mapping, which agrees with
JavaScript on the inputs of interest). -/
def jsToLower (s : String) : String :=
  String.mk (s.toList.map Char.toLower)

/-- Fueled split on a non-empty separator: emit the accumulated segment at
each separator occurrence and continue after it. -/
def jsSplitFuel : Nat → List Char → List Char → List Char → List (List Char)
  | _, _, acc, [] => [acc.reverse]
  | 0, _, acc, rest => [acc.reverse ++ rest]
  | fuel + 1, sep, acc, c :: cs =>
    if sep.isPrefixOf (c :: cs) then
      acc.reverse :: jsSplitFuel fuel sep [] (cs.drop (sep.length - 1))
    else
      jsSplitFuel fuel sep (c :: acc) cs

/-- JavaScript `s.split(sep)` for a non-empty separator string. -/
def jsSplitOn (s sep : String) : List String :=
  (jsSplitFuel s.toList.length sep.toList [] s.toList).map (fun cs => String.mk cs)

/-- Fueled form of insertion-order deduplication; the fuel bounds the list
length and only guarantees totality. -/
def dedupFirstFuel : Nat → List String → List String
  | _, [] => []
  | 0, _ :: _ => []
  | fuel + 1, x :: xs => x :: dedupFirstFuel fuel (xs.filter (fun y => y ≠ x))

/-- Insertion-order deduplication, the behaviour of `[...new Set(fields)]`:
keep the first occurrence of each element, drop later exact duplicates. -/
def dedupFirst (l : List String) : List String :=
  dedupFirstFuel l.length l

/-- Fueled scan for matches of the regex `/\x7b\x7b([^}]+)\x7d\x7d/g`: at a
position starting with two open braces, greedily take one or more
non-close-brace characters; if two close braces follow this is a match and the
scan resumes after it, otherwise the scan advances one character. -/
def extractAuxFuel : Nat → List Char → List (List Char)
  | _, [] => []
  | 0, _ :: _ => []
  | fuel + 1, c :: rest =>
    if c = '{' ∧ rest.take 1 = ['{'] then
      let rest2 := rest.drop 1
      let name := rest2.takeWhile (fun ch => ch ≠ '}')
      if name ≠ [] ∧ (rest2.drop name.length).take 2 = ['}', '}'] then
        name :: extractAuxFuel fuel (rest2.drop (name.length + 2))
      else extractAuxFuel fuel rest
    else extractAuxFuel fuel rest

/-- Raw capture list of the extractor scan, before deduplication. -/
def extractAllRaw (content : String) : List (List Char) :=
  extractAuxFuel content.toList.length content.toList

/-- Source `extractFieldsNeedingInput`: collect every capture of
`/\x7b\x7b([^}]+)\x7d\x7d/g` over the content, then remove duplicates with an
insertion-order `Set`. -/
def extractFieldsNeedingInput (content : String) : List String :=
  dedupFirst ((extractAllRaw content).map (fun cs => String.mk cs))

/-- One position of the modelled regex pattern: a literal character or the
`.` wildcard. -/
inductive PAtom where
  | lit (c : Char)
  | wild
deriving DecidableEq

/-- JavaScript `.` (without the `s` flag) matches any character except a line
terminator. -/
def dotMatches (c : Char) : Bool :=
  !(c = '\n' || c = '\r' || c = '\u2028' || c = '\u2029')

/-- Whether a pattern position matches one character. -/
def matchAtom : PAtom → Char → Bool
  | .lit d, c => c = d
  | .wild, c => dotMatches c

/-- Whether the pattern matches a prefix of the text, position by position. -/
def matchAtomsPrefix : List PAtom → List Char → Bool
  | [], _ => true
  | _ :: _, [] => false
  | p :: ps, c :: cs => matchAtom p c && matchAtomsPrefix ps cs

/-- The JavaScript regex metacharacters.  A field name character equal to one
of these (other than `.`) takes the spliced pattern outside the modelled
fragment. -/
def regexSpecials : List Char :=
  ['\\', '^', '$', '.', '|', '?', '*', '+', '(', ')', '[', ']', '{', '}']

/-- Compile one character of the spliced field name: `.` becomes the
wildcard, any other metacharacter is out of the fragment, the rest are
literals. -/
def compileChar (c : Char) : Option PAtom :=
  if c = '.' then some .wild
  else if regexSpecials.contains c then none
  else some (.lit c)

/-- Compile a field name to the pattern positions it contributes, when every
character is in the modelled fragment. -/
def compileName (name : String) : Option (List PAtom) :=
  name.toList.mapM compileChar

/-- The full pattern of `new RegExp("\\\x7b\\\x7b" + fieldName + "\\\x7d\\\x7d", "g")`:
two literal open braces, the compiled name, two literal close braces. -/
def patOfName (atoms : List PAtom) : List PAtom :=
  .lit '{' :: .lit '{' :: (atoms ++ [.lit '}', .lit '}'])

/-- JavaScript replacement-string expansion: `$$`, `$&` (the match),
a dollar-backquote (the text before the match) and a dollar-quote (the text
after it) are substituted; any other text is copied.  The modelled patterns
have no capture groups, so `$n` stays literal, as in JavaScript. -/
def expandRepl : List Char → List Char → List Char → List Char → List Char
  | [], _, _, _ => []
  | [c], _, _, _ => [c]
  | c :: d :: r, m, b, a =>
    if c = '$' then
      if d = '$' then '$' :: expandRepl r m b a
      else if d = '&' then m ++ expandRepl r m b a
      else if d = Char.ofNat 96 then b ++ expandRepl r m b a
      else if d = Char.ofNat 39 then a ++ expandRepl r m b a
      else c :: expandRepl (d :: r) m b a
    else c :: expandRepl (d :: r) m b a

/-- Fueled scan of `String.prototype.replace` with a global regex: find the
leftmost match at or after the current position, expand the replacement
string against it, and resume after the match.  `before` accumulates the part
of the original string already passed. -/
def jsReplaceFuel : Nat → PAtom → List PAtom → List Char → List Char → List Char → List Char
  | _, _, _, _, _, [] => []
  | 0, _, _, _, _, s => s
  | fuel + 1, p0, ps, repl, before, c :: cs =>
    if matchAtomsPrefix (p0 :: ps) (c :: cs) then
      expandRepl repl ((c :: cs).take (ps.length + 1)) before (cs.drop ps.length) ++
        jsReplaceFuel fuel p0 ps repl (before ++ (c :: cs).take (ps.length + 1)) (cs.drop ps.length)
    else
      c :: jsReplaceFuel fuel p0 ps repl (before ++ [c]) cs

/-- `content.replace(regex, repl)` for a global regex in the modelled
fragment (the pattern is never empty: it starts with a literal brace). -/
def jsReplaceAll (pats : List PAtom) (repl : String) (s : String) : String :=
  match pats with
  | [] => s
  | p0 :: ps => String.mk (jsReplaceFuel s.toList.length p0 ps repl.toList [] s.toList)

/-- Fueled literal global replacement: replace each leftmost occurrence of
the token `t0 :: ts` by `repl` and resume after it. -/
def replaceAllLitFuel : Nat → Char → List Char → List Char → List Char → List Char
  | _, _, _, _, [] => []
  | 0, _, _, _, s => s
  | fuel + 1, t0, ts, repl, c :: cs =>
    if (t0 :: ts).isPrefixOf (c :: cs) then
      repl ++ replaceAllLitFuel fuel t0 ts repl (cs.drop ts.length)
    else
      c :: replaceAllLitFuel fuel t0 ts repl cs

/-- Replacement of every occurrence of the literal token `tok` by `repl`,
scanning left to right and never overlapping: the claim-side meaning of
"replaces every occurrence of the literal placeholder token". -/
def replaceAllLit (tok repl s : String) : String :=
  match tok.toList with
  | [] => s
  | t0 :: ts => String.mk (replaceAllLitFuel s.toList.length t0 ts repl.toList s.toList)

/-- Source `getAcknowledgmentMessage`: deterministic acknowledgment text
chosen by keyword matching on the lower-cased field name, with a tail that
depends on whether fields remain (`totalFields - currentIndex - 1 > 0`). -/
def getAcknowledgmentMessage (fieldName value : String) (currentIndex totalFields : Nat)
    (skipped : Bool) : String :=
  let remainingFields := totalFields - currentIndex - 1
  let tail :=
    if remainingFields > 0 then "Let's continue with the next field."
    else "That was the last field! I'll review the tech pack now."
  if skipped then
    "No problem, I've marked " ++ fieldName ++ " as not provided. " ++ tail
  else if jsIncludes (jsToLower fieldName) "brand" then
    "Thank you for providing the brand name \"" ++ value ++ "\". " ++ tail
  else if jsIncludes (jsToLower fieldName) "designer" then
    "Got it, the designer is \"" ++ value ++ "\". " ++ tail
  else if jsIncludes (jsToLower fieldName) "description" then
    "Thank you for the description. " ++ tail
  else if jsIncludes (jsToLower fieldName) "measurements" then
    "I've updated the measurements as provided. " ++ tail
  else
    "Thank you for providing the " ++ jsToLower fieldName ++ ". " ++ tail

/-- The combined dialogue turn appended by `handleSubmitField`. -/
def submitTurn (fieldName value : String) (currentIndex totalFields : Nat) : String :=
  "For " ++ fieldName ++ ": " ++ value ++ "\n\n**AI Response:** " ++
    getAcknowledgmentMessage fieldName value currentIndex totalFields false

/-- The combined dialogue turn appended by `handleSkipField`. -/
def skipTurn (fieldName : String) (currentIndex totalFields : Nat) : String :=
  "I'd like to skip providing the " ++ fieldName ++ " for now.\n\n**AI Response:** " ++
    getAcknowledgmentMessage fieldName "" currentIndex totalFields true

/-- The terminal dialogue turn of the completion effect. -/
def completionMessage : String :=
  "I've completed filling in all the required fields. Please review the tech pack and let me know if you have any suggestions for improvements."

/-- The fallback text spliced in for a skipped field (`value || fallback`
with an empty value). -/
def notProvidedMarker (fieldName : String) : String :=
  "[" ++ fieldName ++ " - Not Provided]"

/-- State of the `FieldFiller` component together with its observable
effects: the artifact content, the extracted field list, the cursor, the
dialogue turns appended so far, the contents posted to the persistence
endpoint, and the completion flags. -/
structure FFState where
  content : String
  fields : List String
  cursor : Nat
  turns : List String
  saves : List String
  isComplete : Bool
  completionSent : Bool
deriving DecidableEq

/-- Source `updateArtifactContent`: on empty content return at once (no
mutation, no save); otherwise replace the spliced-name regex globally by the
value, or by the not-provided marker when the value is empty, and post the
result to the persistence endpoint.  `none` when the field name is outside
the modelled regex fragment. -/
def updateArtifactContent (content fieldName value : String) : Option (String × Bool) :=
  if content = "" then some (content, false)
  else
    match compileName fieldName with
    | none => none
    | some atoms =>
      some (jsReplaceAll (patOfName atoms)
        (if value = "" then notProvidedMarker fieldName else value) content, true)

/-- Source `handleSubmitField`, with the component's `fieldValue` passed as
the `value` argument: a no-op when the cursor is past the field list or the
trimmed value is empty; otherwise mutate the content, append one combined
turn, and advance the cursor. -/
def handleSubmitField (s : FFState) (value : String) : FFState :=
  if s.cursor < s.fields.length ∧ jsTrim value ≠ "" then
    match updateArtifactContent s.content (s.fields.getD s.cursor "") value with
    | none => s
    | some (content', saved) =>
      { s with
        content := content'
        saves := s.saves ++ (if saved then [content'] else [])
        turns := s.turns ++
          [submitTurn (s.fields.getD s.cursor "") value s.cursor s.fields.length]
        cursor := s.cursor + 1 }
  else s

/-- Source `handleSkipField`: a no-op when the cursor is past the field list;
otherwise mutate the content with an empty value (so the not-provided marker
is spliced in), append one combined turn, and advance the cursor. -/
def handleSkipField (s : FFState) : FFState :=
  if s.cursor < s.fields.length then
    match updateArtifactContent s.content (s.fields.getD s.cursor "") "" with
    | none => s
    | some (content', saved) =>
      { s with
        content := content'
        saves := s.saves ++ (if saved then [content'] else [])
        turns := s.turns ++ [skipTurn (s.fields.getD s.cursor "") s.cursor s.fields.length]
        cursor := s.cursor + 1 }
  else s

/-- Source completion effect (the `useEffect` watching the cursor): when the
field list is non-empty, the cursor has reached the field count and the
one-shot guard is still clear, set both flags and append the terminal turn;
otherwise change nothing. -/
def checkCompletion (s : FFState) : FFState :=
  if s.fields.length > 0 ∧ s.cursor ≥ s.fields.length ∧ s.completionSent = false then
    { s with
      isComplete := true
      completionSent := true
      turns := s.turns ++ [completionMessage] }
  else s

/-- One user-visible event of a field session: a submit click (carrying the
typed value), a skip click, or a re-evaluation of the component (which runs
the completion effect). -/
inductive FFAction where
  | submit (value : String)
  | skip
  | observe

/-- Apply one action to the session state. -/
def ffStep (s : FFState) : FFAction → FFState
  | .submit value => handleSubmitField s value
  | .skip => handleSkipField s
  | .observe => checkCompletion s

/-- Run a sequence of actions. -/
def runActions (s : FFState) (acts : List FFAction) : FFState :=
  acts.foldl ffStep s

/-- The slice of the artifact state that `onStreamPart` reads and writes:
the accumulated draft, the visibility flag and the status tag. -/
structure UIArtifact where
  content : String
  isVisible : Bool
  status : String
deriving DecidableEq

/-- A stream part as the text artifact handler sees it: a text delta, or a
suggestion part (which touches only the metadata, not the artifact). -/
inductive StreamPart where
  | textDelta (s : String)
  | suggestion

/-- Source `onStreamPart` of the text artifact: a text delta is appended to
the content; the visibility flag is set when the status was "streaming" and
the pre-append content length lies strictly between 400 and 450, and is kept
unchanged otherwise; the status becomes "streaming". -/
def onStreamPart (a : UIArtifact) : StreamPart → UIArtifact
  | .suggestion => a
  | .textDelta d =>
    { content := a.content ++ d
      isVisible :=
        if a.status = "streaming" ∧ a.content.length > 400 ∧ a.content.length < 450 then
          true
        else a.isVisible
      status := "streaming" }

/-- Apply an ordered sequence of stream parts. -/
def applyParts (a : UIArtifact) (ps : List StreamPart) : UIArtifact :=
  ps.foldl onStreamPart a

/-- Claim-side trigger predicate: some text delta of the sequence arrives
while the accumulated length (starting from `len`) lies strictly between 400
and 450. -/
def entersWindow (len : Nat) : List StreamPart → Bool
  | [] => false
  | .suggestion :: ps => entersWindow len ps
  | .textDelta d :: ps => (400 < len && len < 450) || entersWindow (len + d.length) ps

/-- The version-browsing state of a document: the snapshot history, the
current version index, and whether diff view is on. -/
structure VersionViewer where
  versions : List String
  currentVersionIndex : Nat
  diffMode : Bool
deriving DecidableEq

/-- Modelled from the spec: `getDocumentContentById` belongs to the artifact
runtime component, which is not among the repository files; §4.4 specifies
that retrieval at an out-of-range index is a not-found error.  The argument
is an integer because the diff view passes `currentVersionIndex - 1`. -/
def getDocumentContentById (versions : List String) (i : Int) : Option String :=
  if 0 ≤ i then versions.get? i.toNat else none

/-- Source diff-mode branch of the text artifact `content` renderer: the old
content is fetched at `currentVersionIndex - 1` and the new one at
`currentVersionIndex`. -/
def diffPair (versions : List String) (currentVersionIndex : Nat) :
    Option String × Option String :=
  (getDocumentContentById versions ((currentVersionIndex : Int) - 1),
   getDocumentContentById versions (currentVersionIndex : Int))

/-- Modelled from the spec: `handleVersionChange("prev")` lives outside the
repository files; §4.4 specifies that `prev()` decrements the index, clamped
at 0. -/
def prevVersion (s : VersionViewer) : VersionViewer :=
  if s.currentVersionIndex = 0 then s
  else { s with currentVersionIndex := s.currentVersionIndex - 1 }

/-- Modelled from the spec: `handleVersionChange("next")` lives outside the
repository files; §4.4 specifies that `next()` increments the index, clamped
at the last index. -/
def nextVersion (s : VersionViewer) : VersionViewer :=
  if s.currentVersionIndex + 1 ≥ s.versions.length then s
  else { s with currentVersionIndex := s.currentVersionIndex + 1 }

/-- Modelled from the spec: `handleVersionChange("toggle")` lives outside
the repository files; §4.4 specifies that `toggle()` flips the diff-view
flag without changing the index. -/
def toggleVersion (s : VersionViewer) : VersionViewer :=
  { s with diffMode := !s.diffMode }

/-- Source `isDisabled` of the "View changes" (toggle) action: disabled
exactly at version index 0. -/
def toggleDisabled (currentVersionIndex : Nat) : Bool :=
  currentVersionIndex = 0

/-- Source `isDisabled` of the "View Previous version" action: disabled
exactly at version index 0. -/
def prevDisabled (currentVersionIndex : Nat) : Bool :=
  currentVersionIndex = 0

/-- Source `isDisabled` of the "View Next version" action: disabled exactly
when the viewed version is the current (last) one. -/
def nextDisabled (isCurrentVersion : Bool) : Bool :=
  isCurrentVersion

/-- A rendered document element as the bill-of-materials recovery walks it:
a heading, a paragraph, or a list with the text of its items. -/
inductive DocElem where
  | heading (text : String)
  | para (text : String)
  | bullets (items : List String)

/-- The `textContent` of an element (for a list, the concatenated item
text). -/
def elemText : DocElem → String
  | .heading t => t
  | .para t => t
  | .bullets items => String.join items

/-- One recovered bill-of-materials row. -/
structure BomRow where
  item : String
  description : String
  color : String
  code : String
  qty : String
  supplier : String
deriving DecidableEq

/-- Positional assignment of split parts to the six row fields, missing
positions defaulting to the empty string (`parts[k] || ""`). -/
def bomRowOfParts (parts : List String) : BomRow :=
  { item := parts.getD 0 ""
    description := parts.getD 1 ""
    color := parts.getD 2 ""
    code := parts.getD 3 ""
    qty := parts.getD 4 ""
    supplier := parts.getD 5 "" }

/-- Source split of a collected line: on `;` when the line contains a
semicolon, otherwise on `,`, trimming every part. -/
def splitBomLine (text : String) : List String :=
  if jsIncludes text ";" then (jsSplitOn text ";").map jsTrim
  else (jsSplitOn text ",").map jsTrim

/-- Whether a heading text (lower-cased) marks the bill-of-materials
section. -/
def isBomHeadingText (t : String) : Bool :=
  jsIncludes (jsToLower t) "bill of materials" || jsIncludes (jsToLower t) "materials" ||
    jsIncludes (jsToLower t) "bom"

/-- The document suffix after the first heading recognised as the
bill-of-materials heading (`Array.from(headings).find(...)` and
`nextElementSibling`). -/
def afterBomHeading : List DocElem → Option (List DocElem)
  | [] => none
  | .heading t :: rest => if isBomHeadingText t then some rest else afterBomHeading rest
  | _ :: rest => afterBomHeading rest

/-- Source walk after the BOM heading: stop at the next heading; at the
first list take at most 11 items as rows and stop; collect each non-empty
paragraph that does not restate the section header and splits into at least
two parts; continue past anything else. -/
def bomWalk : List DocElem → List BomRow
  | [] => []
  | .heading _ :: _ => []
  | .bullets items :: _ =>
    (items.take 11).map (fun t => bomRowOfParts (splitBomLine (jsTrim t)))
  | .para t :: rest =>
    let text := jsTrim t
    if text ≠ "" ∧ jsIncludes (jsToLower text) "bill of materials" = false then
      let parts := splitBomLine text
      if parts.length ≥ 2 then bomRowOfParts parts :: bomWalk rest else bomWalk rest
    else bomWalk rest

/-- Source fallback when no rows were collected: every list in the document
whose immediately preceding element mentions "material", "fabric" or "bom"
contributes up to 11 rows (a list with no preceding element never
qualifies). -/
def fallbackBomRows : List DocElem → List BomRow
  | [] => []
  | [_] => []
  | e1 :: e2 :: rest =>
    (match e2 with
     | .bullets items =>
       if jsIncludes (jsToLower (elemText e1)) "material" ||
           jsIncludes (jsToLower (elemText e1)) "fabric" ||
           jsIncludes (jsToLower (elemText e1)) "bom" then
         (items.take 11).map (fun t => bomRowOfParts (splitBomLine (jsTrim t)))
       else []
     | _ => []) ++ fallbackBomRows (e2 :: rest)

/-- Source `extractTechPackInfo`, bill-of-materials part: rows from the walk
after the BOM heading when that finds any, else the fallback list scan. -/
def extractBomItems (elems : List DocElem) : List BomRow :=
  let primary :=
    match afterBomHeading elems with
    | some rest => bomWalk rest
    | none => []
  if primary = [] then fallbackBomRows elems else primary

/-- An upload attachment as the tool sees it. -/
structure Attachment where
  name : Option String
  url : String
  contentType : Option String

/-- The predicate of the source `attachments.find(...)`: the content type is
present and starts with "image/" (an absent content type is falsy). -/
def isImageAttachment (a : Attachment) : Bool :=
  match a.contentType with
  | some c => jsStartsWith c "image/"
  | none => false

/-- One typed chunk written to the data stream by the tool. -/
inductive StreamEvent where
  | kind (s : String)
  | id (s : String)
  | title (s : String)
  | clear
  | textDelta (s : String)
  | fieldsNeedingInput (fields : List String)
deriving DecidableEq

/-- One document upsert issued to persistence. -/
structure SavedDoc where
  docId : String
  docTitle : String
  docContent : String
  docKind : String
  userId : String
deriving DecidableEq

/-- Everything observable about one run of the tool: the returned result (a
typed error or the closing content message), the stream events emitted in
order, and the documents saved. -/
structure AnalyzeOutcome where
  result : Except String String
  events : List StreamEvent
  savedDocs : List SavedDoc

/-- The error text of the missing-attachment branch. -/
def noImageError : String :=
  "No image attachment found. Please upload an image first and then run this tool in the same message."

/-- Source `analyzeImage.execute`: with no image attachment, return the
typed error at once — nothing has been written to the stream, nothing saved,
no dialogue started.  Otherwise emit the kind/id/title/clear declarations
and the image markdown, relay the generation deltas (`llmDeltas`, supplied
by the external model stream), emit the extracted field list, and save the
document when a user id is present.  `uuid` stands for `generateUUID()`. -/
def analyzeImageExecute (attachments : List Attachment) (title uuid : String)
    (userId : Option String) (llmDeltas : List String) : AnalyzeOutcome :=
  match attachments.find? isImageAttachment with
  | none => { result := .error noImageError, events := [], savedDocs := [] }
  | some att =>
    let attName :=
      match att.name with
      | some n => if n = "" then "Uploaded Image" else n
      | none => "Uploaded Image"
    let imageMarkdown := "# " ++ title ++ "\n\n![" ++ attName ++ "](" ++ att.url ++ ")\n\n"
    let draftContent := imageMarkdown ++ String.join llmDeltas
    let fields := extractFieldsNeedingInput draftContent
    { result := .ok "I've created a tech pack based on your image. I've identified several fields that need your input. Please look at the form below the chat to fill in these details one by one. As you provide information, I'll update the tech pack document with your input."
      events := [.kind "text", .id uuid, .title title, .clear, .textDelta imageMarkdown] ++
        llmDeltas.map .textDelta ++ [.fieldsNeedingInput fields]
      savedDocs :=
        match userId with
        | some uid =>
          [{ docId := uuid, docTitle := title, docContent := draftContent,
             docKind := "text", userId := uid }]
        | none => [] }

/-- Index of the first occurrence of `y` in the list (the list length when
absent). -/
def firstIdx {α : Type} [DecidableEq α] : List α → α → Nat
  | [], _ => 0
  | x :: xs, y => if x = y then 0 else firstIdx xs y + 1
/-- The raw capture names, as strings, in scan order. -/
def rawFieldNames (content : String) : List String :=
  (extractAllRaw content).map (fun cs => String.mk cs)
/-- Potential of a session state for the one-shot argument: the number of
terminal turns already in the log plus one pending allowance while the guard
flag is clear. -/
def completionPotential (s : FFState) : Nat :=
  s.turns.count completionMessage + (if s.completionSent then 0 else 1)
/-- The literal placeholder token of a field name: the name wrapped in
double open and double close braces. -/
def placeholderToken (name : String) : String :=
  "\x7b\x7b" ++ name ++ "\x7d\x7d"
/-- Claim-side split of a collected line: choose the delimiter (semicolon
when present, else comma), split on it and trim every part. -/
def specSplitBomParts (line : String) : List String :=
  (jsSplitOn line (if jsIncludes line ";" then ";" else ",")).map jsTrim

theorem firstIdx_filter_lt {α : Type} [DecidableEq α] (p : α → Bool) :
    ∀ (l : List α) (y z : α), y ∈ l.filter p → z ∈ l.filter p →
      firstIdx (l.filter p) y < firstIdx (l.filter p) z → firstIdx l y < firstIdx l z := by
  intro l
  induction l with
  | nil => intro y z hy _ _; simp at hy
  | cons a t ih =>
    intro y z hy hz hlt
    by_cases hpa : p a
    · rw [List.filter_cons_of_pos hpa] at hy hz hlt
      by_cases hay : a = y
      · subst hay
        by_cases haz : a = z
        · subst haz; simp [firstIdx] at hlt
        · simp [firstIdx, haz]
      · by_cases haz : a = z
        · subst haz
          have h0 : firstIdx (a :: List.filter p t) a = 0 := by simp [firstIdx]
          rw [h0] at hlt
          exact absurd hlt (Nat.not_lt_zero _)
        · have hy' : y ∈ t.filter p := by
            rcases List.mem_cons.mp hy with h | h
            · exact absurd h.symm hay
            · exact h
          have hz' : z ∈ t.filter p := by
            rcases List.mem_cons.mp hz with h | h
            · exact absurd h.symm haz
            · exact h
          simp only [firstIdx, if_neg hay, if_neg haz] at hlt ⊢
          have := ih y z hy' hz' (by omega)
          omega
    · rw [List.filter_cons_of_neg hpa] at hy hz hlt
      have hay : a ≠ y := by
        intro h; subst h
        exact absurd (List.mem_filter.mp hy).2 (by simpa using hpa)
      have haz : a ≠ z := by
        intro h; subst h
        exact absurd (List.mem_filter.mp hz).2 (by simpa using hpa)
      simp only [firstIdx, if_neg hay, if_neg haz]
      have := ih y z hy hz hlt
      omega

theorem dedupFirstFuel_spec :
    ∀ (fuel : Nat) (l : List String), l.length ≤ fuel →
      (dedupFirstFuel fuel l).Nodup ∧
      (∀ x, x ∈ dedupFirstFuel fuel l ↔ x ∈ l) ∧
      List.Pairwise (fun x y => firstIdx l x < firstIdx l y) (dedupFirstFuel fuel l) := by
  intro fuel
  induction fuel with
  | zero =>
    intro l hl
    have : l = [] := List.length_eq_zero.mp (Nat.le_zero.mp hl)
    subst this
    simp [dedupFirstFuel]
  | succ f ih =>
    intro l hl
    cases l with
    | nil => simp [dedupFirstFuel]
    | cons x xs =>
      have hxs : xs.length ≤ f := by simpa using Nat.succ_le_succ_iff.mp hl
      have hlen : (xs.filter (fun y => y ≠ x)).length ≤ f :=
        le_trans (List.length_filter_le _ _) hxs
      obtain ⟨h1, h2, h3⟩ := ih _ hlen
      have hmemf : ∀ y, y ∈ dedupFirstFuel f (xs.filter (fun y => y ≠ x)) → y ≠ x := by
        intro y hy
        have := (h2 y).mp hy
        simpa using (List.mem_filter.mp this).2
      refine ⟨?_, ?_, ?_⟩
      · rw [show dedupFirstFuel (f + 1) (x :: xs) =
          x :: dedupFirstFuel f (xs.filter (fun y => y ≠ x)) from rfl]
        exact List.nodup_cons.mpr ⟨fun hx => (hmemf x hx) rfl, h1⟩
      · intro y
        rw [show dedupFirstFuel (f + 1) (x :: xs) =
          x :: dedupFirstFuel f (xs.filter (fun y => y ≠ x)) from rfl]
        by_cases hxy : y = x
        · subst hxy; simp
        · simp only [List.mem_cons, h2 y, List.mem_filter]
          simp [hxy]
      · rw [show dedupFirstFuel (f + 1) (x :: xs) =
          x :: dedupFirstFuel f (xs.filter (fun y => y ≠ x)) from rfl]
        refine List.pairwise_cons.mpr ⟨?_, ?_⟩
        · intro y hy
          have hyx : y ≠ x := hmemf y hy
          simp [firstIdx, Ne.symm hyx]
        · refine List.Pairwise.imp_of_mem ?_ h3
          intro a b ha hb hab
          have ha' := (h2 a).mp ha
          have hb' := (h2 b).mp hb
          have hax : a ≠ x := by simpa using (List.mem_filter.mp ha').2
          have hbx : b ≠ x := by simpa using (List.mem_filter.mp hb').2
          have := firstIdx_filter_lt (fun y => y ≠ x) xs a b ha' hb' hab
          simp only [firstIdx, if_neg (Ne.symm hax), if_neg (Ne.symm hbx)]
          omega

theorem extractAuxFuel_sound :
    ∀ (fuel : Nat) (l : List Char), ∀ cs ∈ extractAuxFuel fuel l,
      cs ≠ [] ∧ (∀ c ∈ cs, c ≠ '}') ∧
        ∃ pre post, l = pre ++ ('{' :: '{' :: (cs ++ ['}', '}'])) ++ post := by
  intro fuel
  induction fuel with
  | zero =>
    intro l cs hcs
    cases l <;> simp [extractAuxFuel] at hcs
  | succ f ih =>
    intro l cs hcs
    cases l with
    | nil => simp [extractAuxFuel] at hcs
    | cons c rest =>
      have hstep : ∀ hmem : cs ∈ extractAuxFuel f rest,
          cs ≠ [] ∧ (∀ ch ∈ cs, ch ≠ '}') ∧
            ∃ pre post, c :: rest = pre ++ ('{' :: '{' :: (cs ++ ['}', '}'])) ++ post := by
        intro hmem
        obtain ⟨hne, hchars, pre, post, hdec⟩ := ih rest cs hmem
        exact ⟨hne, hchars, c :: pre, post, by simp [hdec]⟩
      by_cases hbb : c = '{' ∧ rest.take 1 = ['{']
      · rw [show extractAuxFuel (f + 1) (c :: rest) =
            (if (rest.drop 1).takeWhile (fun ch => ch ≠ '}') ≠ [] ∧
                (((rest.drop 1).drop ((rest.drop 1).takeWhile (fun ch => ch ≠ '}')).length).take 2
                  = ['}', '}']) then
              ((rest.drop 1).takeWhile (fun ch => ch ≠ '}')) ::
                extractAuxFuel f ((rest.drop 1).drop
                  (((rest.drop 1).takeWhile (fun ch => ch ≠ '}')).length + 2))
            else extractAuxFuel f rest) from by
          simp only [extractAuxFuel]
          rw [if_pos hbb]] at hcs
        by_cases hcond : (rest.drop 1).takeWhile (fun ch => ch ≠ '}') ≠ [] ∧
            (((rest.drop 1).drop ((rest.drop 1).takeWhile (fun ch => ch ≠ '}')).length).take 2
              = ['}', '}'])
        · rw [if_pos hcond] at hcs
          obtain ⟨hc, htake⟩ := hbb
          subst hc
          obtain ⟨r, rs, hr⟩ : ∃ r rs, rest = r :: rs := by
            cases rest with
            | nil => simp at htake
            | cons r rs => exact ⟨r, rs, rfl⟩
          subst hr
          have hr2 : r = '{' := by simpa using htake
          subst hr2
          simp only [List.drop_succ_cons, List.drop_zero] at hcs hcond
          set name := rs.takeWhile (fun ch => ch ≠ '}') with hname
          have hpre : name <+: rs := List.takeWhile_prefix _
          obtain ⟨tl, htl⟩ := hpre
          have hdrop : rs.drop name.length = tl := by
            rw [← htl]
            exact List.drop_left name tl
          have htl2 : tl = '}' :: '}' :: tl.drop 2 := by
            rw [hdrop] at hcond
            conv_lhs => rw [← List.take_append_drop 2 tl]
            rw [hcond.2]
            rfl
          have hdrop2 : rs.drop (name.length + 2) = tl.drop 2 := by
            have : rs = (name ++ ['}', '}']) ++ tl.drop 2 := by
              rw [← htl]
              conv_lhs => rw [htl2]
              simp
            rw [this, List.drop_left']
            simp
          rcases List.mem_cons.mp hcs with hceq | hmem
          · subst hceq
            refine ⟨hcond.1, ?_, [], tl.drop 2, ?_⟩
            · intro ch hch
              have := List.mem_takeWhile_imp hch
              simpa using this
            · simp only [List.nil_append, List.cons.injEq, true_and]
              rw [← htl]
              conv_lhs => rw [htl2]
              simp
          · rw [hdrop2] at hmem
            obtain ⟨hne, hchars, pre, post, hdec⟩ := ih _ cs hmem
            refine ⟨hne, hchars, '{' :: '{' :: (name ++ ['}', '}'] ++ pre), post, ?_⟩
            rw [← htl]
            conv_lhs => rw [htl2]
            rw [hdec]
            simp
        · rw [if_neg hcond] at hcs
          exact hstep hcs
      · rw [show extractAuxFuel (f + 1) (c :: rest) = extractAuxFuel f rest from by
          simp only [extractAuxFuel]
          rw [if_neg hbb]] at hcs
        exact hstep hcs

/-- C3: for every input text, the extractor output contains no duplicate
field names; it has exactly the members of the raw capture list (the names
appearing between double open and double close braces, in scan order);
its elements are ordered by first occurrence in that scan; and every output
name is non-empty, free of close braces, and occurs in the text wrapped in
the double-brace delimiters. -/
theorem extractFields_nodup_first_occurrence (content : String) :
    (extractFieldsNeedingInput content).Nodup ∧
    (∀ x, x ∈ extractFieldsNeedingInput content ↔ x ∈ rawFieldNames content) ∧
    List.Pairwise
      (fun x y => firstIdx (rawFieldNames content) x < firstIdx (rawFieldNames content) y)
      (extractFieldsNeedingInput content) ∧
    (∀ x ∈ extractFieldsNeedingInput content, x ≠ "" ∧ (∀ c ∈ x.toList, c ≠ '}') ∧
      ∃ pre post, content.toList = pre ++ ('{' :: '{' :: (x.toList ++ ['}', '}'])) ++ post) := by
  have hspec := dedupFirstFuel_spec (rawFieldNames content).length (rawFieldNames content) le_rfl
  have heq : extractFieldsNeedingInput content = dedupFirstFuel (rawFieldNames content).length (rawFieldNames content) := rfl
  obtain ⟨h1, h2, h3⟩ := hspec
  refine ⟨by rw [heq]; exact h1, fun x => by rw [heq]; exact h2 x, by rw [heq]; exact h3, ?_⟩
  intro x hx
  have hxraw : x ∈ rawFieldNames content := by
    rw [heq] at hx
    exact (h2 x).mp hx
  obtain ⟨cs, hcsmem, hcseq⟩ := List.mem_map.mp hxraw
  obtain ⟨hne, hchars, pre, post, hdec⟩ := extractAuxFuel_sound _ _ cs hcsmem
  have hxl : x.toList = cs := by rw [← hcseq]; rfl
  refine ⟨?_, ?_, pre, post, ?_⟩
  · intro hx0
    apply hne
    rw [← hxl, hx0]
    rfl
  · rw [hxl]; exact hchars
  · rw [hxl]; exact hdec

/-- C4: once the cursor is at or past the field count, submitting any value
or skipping changes nothing at all: content, dialogue turns, persistence
requests and cursor are untouched. -/
theorem submit_skip_noop_past_end (s : FFState) (value : String)
    (h : s.fields.length ≤ s.cursor) :
    handleSubmitField s value = s ∧ handleSkipField s = s := by
  have hng : ¬(s.cursor < s.fields.length ∧ jsTrim value ≠ "") :=
    fun hc => absurd hc.1 (Nat.not_lt.mpr h)
  have hns : ¬ s.cursor < s.fields.length := Nat.not_lt.mpr h
  exact ⟨by simp [handleSubmitField, hng], by simp [handleSkipField, hns]⟩

/-- Witness for `submit_skip_noop_past_end` at a concrete exhausted state. -/
theorem submit_skip_noop_past_end_witness :
    handleSubmitField ⟨"\x7b\x7bA\x7d\x7d", ["A"], 1, [], [], false, false⟩ "v" =
        ⟨"\x7b\x7bA\x7d\x7d", ["A"], 1, [], [], false, false⟩ ∧
      handleSkipField ⟨"\x7b\x7bA\x7d\x7d", ["A"], 1, [], [], false, false⟩ =
        ⟨"\x7b\x7bA\x7d\x7d", ["A"], 1, [], [], false, false⟩ :=
  submit_skip_noop_past_end _ _ (by decide)

/-- C9: when no attachment has an image content type, `analyzeImage.execute`
returns the typed error result and creates nothing: no stream events, no
saved document, hence no dialogue. -/
theorem analyzeImage_without_image_creates_nothing (attachments : List Attachment)
    (title uuid : String) (userId : Option String) (llmDeltas : List String)
    (h : ∀ a ∈ attachments, isImageAttachment a = false) :
    analyzeImageExecute attachments title uuid userId llmDeltas =
      { result := .error noImageError, events := [], savedDocs := [] } := by
  unfold analyzeImageExecute
  rw [List.find?_eq_none.mpr (fun a ha => by simp [h a ha])]

/-- Witness for `analyzeImage_without_image_creates_nothing` on a non-image
attachment list. -/
theorem analyzeImage_without_image_creates_nothing_witness :
    analyzeImageExecute
        [⟨some "notes", "u1", some "application/pdf"⟩, ⟨none, "u2", none⟩]
        "T" "id-1" (some "user-1") ["delta"] =
      { result := .error noImageError, events := [], savedDocs := [] } :=
  analyzeImage_without_image_creates_nothing _ _ _ _ _ (by decide)

/-- C8: `prev()` at index 0 and `next()` at the last index are no-ops and
their actions are disabled there, the toggle action is disabled at index 0
and never changes the index, and the diff view at index `i` fetches the
snapshot pair at indices `(i - 1, i)`. -/
theorem version_navigation_safety (s t : VersionViewer) (vs : List String) (i : Nat)
    (h0 : s.currentVersionIndex = 0)
    (hlast : t.currentVersionIndex + 1 = t.versions.length)
    (hi1 : 1 ≤ i) (hi2 : i < vs.length) :
    prevVersion s = s ∧ prevDisabled s.currentVersionIndex = true ∧
    toggleDisabled 0 = true ∧
    nextVersion t = t ∧ nextDisabled (decide (t.currentVersionIndex + 1 = t.versions.length)) = true ∧
    (∀ u : VersionViewer, (toggleVersion u).currentVersionIndex = u.currentVersionIndex) ∧
    diffPair vs i = (some (vs.getD (i - 1) ""), some (vs.getD i "")) := by
  have hge : t.currentVersionIndex + 1 ≥ t.versions.length := Nat.le_of_eq hlast.symm
  refine ⟨by simp [prevVersion, h0], by simp [prevDisabled, h0], by decide,
    by simp [nextVersion, hge], by simp [nextDisabled, hlast], fun u => rfl, ?_⟩
  have hlt1 : i - 1 < vs.length := by omega
  have htn1 : ((i : Int) - 1).toNat = i - 1 := by omega
  have htn2 : ((i : Int)).toNat = i := by omega
  unfold diffPair getDocumentContentById
  rw [if_pos (by omega : (0 : Int) ≤ (i : Int) - 1), if_pos (by omega : (0 : Int) ≤ (i : Int))]
  rw [htn1, htn2]
  rw [List.get?_eq_getElem?, List.getElem?_eq_getElem hlt1, List.getD_eq_getElem _ _ hlt1]
  rw [List.get?_eq_getElem?, List.getElem?_eq_getElem hi2, List.getD_eq_getElem _ _ hi2]

/-- Witness for `version_navigation_safety` on a concrete three-snapshot
history. -/
theorem version_navigation_safety_witness :
    prevVersion ⟨["a", "b", "c"], 0, false⟩ = ⟨["a", "b", "c"], 0, false⟩ ∧
    prevDisabled (VersionViewer.mk ["a", "b", "c"] 0 false).currentVersionIndex = true ∧
    toggleDisabled 0 = true ∧
    nextVersion ⟨["a", "b", "c"], 2, false⟩ = ⟨["a", "b", "c"], 2, false⟩ ∧
    nextDisabled (decide ((VersionViewer.mk ["a", "b", "c"] 2 false).currentVersionIndex + 1 =
      (VersionViewer.mk ["a", "b", "c"] 2 false).versions.length)) = true ∧
    (∀ u : VersionViewer, (toggleVersion u).currentVersionIndex = u.currentVersionIndex) ∧
    diffPair ["a", "b", "c"] 1 = (some (["a", "b", "c"].getD 0 ""), some (["a", "b", "c"].getD 1 "")) :=
  version_navigation_safety ⟨["a", "b", "c"], 0, false⟩ ⟨["a", "b", "c"], 2, false⟩
    ["a", "b", "c"] 1 rfl (by decide) (by decide) (by decide)

/-- C10: in an active state whose document content is empty, submit (with a
non-empty trimmed value) and skip mutate nothing and post nothing, yet still
append their one combined turn and advance the cursor. -/
theorem empty_content_consumes_field_without_touch (s : FFState) (value : String)
    (hc : s.content = "") (hcur : s.cursor < s.fields.length) (hv : jsTrim value ≠ "") :
    handleSubmitField s value =
      { s with
        turns := s.turns ++ [submitTurn (s.fields.getD s.cursor "") value s.cursor s.fields.length]
        cursor := s.cursor + 1 } ∧
    handleSkipField s =
      { s with
        turns := s.turns ++ [skipTurn (s.fields.getD s.cursor "") s.cursor s.fields.length]
        cursor := s.cursor + 1 } := by
  constructor
  · simp only [handleSubmitField, if_pos (And.intro hcur hv), updateArtifactContent, if_pos hc]
    simp
  · simp only [handleSkipField, if_pos hcur, updateArtifactContent, if_pos hc]
    simp

/-- Witness for `empty_content_consumes_field_without_touch` at a concrete
empty-content state. -/
theorem empty_content_consumes_field_without_touch_witness :
    handleSubmitField ⟨"", ["Brand"], 0, [], [], false, false⟩ "Nike" =
      { FFState.mk "" ["Brand"] 0 [] [] false false with
        turns := [] ++ [submitTurn (["Brand"].getD 0 "") "Nike" 0 ["Brand"].length]
        cursor := 0 + 1 } ∧
    handleSkipField ⟨"", ["Brand"], 0, [], [], false, false⟩ =
      { FFState.mk "" ["Brand"] 0 [] [] false false with
        turns := [] ++ [skipTurn (["Brand"].getD 0 "") 0 ["Brand"].length]
        cursor := 0 + 1 } :=
  empty_content_consumes_field_without_touch ⟨"", ["Brand"], 0, [], [], false, false⟩ "Nike"
    rfl (by decide) (by decide)

theorem submitTurn_ne_completionMessage (name value : String) (i n : Nat) :
    submitTurn name value i n ≠ completionMessage := by
  intro h
  have h1 : (submitTurn name value i n).data.head? = some 'F' := rfl
  rw [h] at h1
  exact absurd h1 (by decide)

theorem skipTurn_ne_completionMessage (name : String) (i n : Nat) :
    skipTurn name i n ≠ completionMessage := by
  intro h
  have h1 : (skipTurn name i n).data.get? 2 = some 'd' := rfl
  rw [h] at h1
  exact absurd h1 (by decide)

theorem count_append_ne (l : List String) (m x : String) (h : m ≠ x) :
    (l ++ [m]).count x = l.count x := by
  rw [List.count_append]
  simp [List.count_singleton', h]

theorem completionPotential_step (s : FFState) (a : FFAction) :
    completionPotential (ffStep s a) = completionPotential s := by
  cases a with
  | submit v =>
    show completionPotential (handleSubmitField s v) = completionPotential s
    unfold handleSubmitField
    by_cases hg : s.cursor < s.fields.length ∧ jsTrim v ≠ ""
    · rw [if_pos hg]
      cases hu : updateArtifactContent s.content (s.fields.getD s.cursor "") v with
      | none => rfl
      | some pr =>
        unfold completionPotential
        simp only
        rw [count_append_ne _ _ _ (submitTurn_ne_completionMessage _ _ _ _)]
    · rw [if_neg hg]
  | skip =>
    show completionPotential (handleSkipField s) = completionPotential s
    unfold handleSkipField
    by_cases hg : s.cursor < s.fields.length
    · rw [if_pos hg]
      cases hu : updateArtifactContent s.content (s.fields.getD s.cursor "") "" with
      | none => rfl
      | some pr =>
        unfold completionPotential
        simp only
        rw [count_append_ne _ _ _ (skipTurn_ne_completionMessage _ _ _)]
    · rw [if_neg hg]
  | observe =>
    show completionPotential (checkCompletion s) = completionPotential s
    unfold checkCompletion
    by_cases hg : s.fields.length > 0 ∧ s.cursor ≥ s.fields.length ∧ s.completionSent = false
    · rw [if_pos hg]
      unfold completionPotential
      simp only [List.count_append, hg.2.2]
      simp [List.count_singleton']
    · rw [if_neg hg]

theorem completionPotential_run (acts : List FFAction) :
    ∀ s : FFState, completionPotential (runActions s acts) = completionPotential s := by
  induction acts with
  | nil => intro s; rfl
  | cons a as ih =>
    intro s
    show completionPotential (runActions (ffStep s a) as) = completionPotential s
    rw [ih (ffStep s a), completionPotential_step]

theorem ffStep_fixed_of_no_fields (s : FFState) (a : FFAction) (hf : s.fields = []) :
    ffStep s a = s := by
  cases a with
  | submit v => simp [ffStep, handleSubmitField, hf]
  | skip => simp [ffStep, handleSkipField, hf]
  | observe => simp [ffStep, checkCompletion, hf]

/-- C2: over any sequence of submit, skip and re-evaluation events, the
terminal completion turn is appended at most once (never again once the
one-shot guard flag is set), and with an empty extracted field list the
session state never changes at all, so the completion turn is never
appended. -/
theorem completion_turn_at_most_once (s : FFState) (acts : List FFAction) :
    (runActions s acts).turns.count completionMessage ≤
      s.turns.count completionMessage + (if s.completionSent then 0 else 1) ∧
    (s.fields = [] → runActions s acts = s) := by
  constructor
  · have h := completionPotential_run acts s
    unfold completionPotential at h
    cases hc1 : (runActions s acts).completionSent <;>
      cases hc2 : s.completionSent <;>
        rw [hc1, hc2] at h <;> simp at h ⊢ <;> omega
  · intro hf
    induction acts generalizing s with
    | nil => rfl
    | cons a as ih =>
      show runActions (ffStep s a) as = s
      rw [ffStep_fixed_of_no_fields s a hf]
      exact ih s hf

theorem expandRepl_no_dollar (m b a : List Char) : ∀ (repl : List Char), '$' ∉ repl →
    expandRepl repl m b a = repl := by
  intro repl
  induction repl with
  | nil => intro _; rfl
  | cons c r ih =>
    intro h
    have hc : c ≠ '$' := fun hh => h (by simp [hh])
    cases r with
    | nil => rfl
    | cons d r2 =>
      rw [show expandRepl (c :: d :: r2) m b a = c :: expandRepl (d :: r2) m b a from by
        simp only [expandRepl]; rw [if_neg hc]]
      rw [ih (fun hr => h (List.mem_cons_of_mem _ hr))]

theorem matchAtomsPrefix_lit : ∀ (cs l : List Char),
    matchAtomsPrefix (cs.map PAtom.lit) l = cs.isPrefixOf l := by
  intro cs
  induction cs with
  | nil => intro l; cases l <;> simp [matchAtomsPrefix, List.isPrefixOf]
  | cons c cs ih =>
    intro l
    cases l with
    | nil => simp [matchAtomsPrefix, List.isPrefixOf]
    | cons d ds =>
      simp only [List.map_cons, matchAtomsPrefix, List.isPrefixOf, matchAtom, ih]
      rcases eq_or_ne d c with h | h <;> simp [h]
      intro hh
      exact absurd hh.symm h

theorem jsReplaceFuel_lit : ∀ (fuel : Nat) (t0 : Char) (ts repl before s : List Char),
    '$' ∉ repl →
    jsReplaceFuel fuel (.lit t0) (ts.map PAtom.lit) repl before s =
      replaceAllLitFuel fuel t0 ts repl s := by
  intro fuel
  induction fuel with
  | zero =>
    intro t0 ts repl before s _
    cases s <;> rfl
  | succ f ih =>
    intro t0 ts repl before s hd
    cases s with
    | nil => rfl
    | cons c cs =>
      have hmp : matchAtomsPrefix (PAtom.lit t0 :: ts.map PAtom.lit) (c :: cs) =
          (t0 :: ts).isPrefixOf (c :: cs) := matchAtomsPrefix_lit (t0 :: ts) (c :: cs)
      by_cases hpre : (t0 :: ts).isPrefixOf (c :: cs) = true
      · rw [show jsReplaceFuel (f + 1) (.lit t0) (ts.map PAtom.lit) repl before (c :: cs) =
            expandRepl repl ((c :: cs).take ((ts.map PAtom.lit).length + 1)) before
                (cs.drop (ts.map PAtom.lit).length) ++
              jsReplaceFuel f (.lit t0) (ts.map PAtom.lit) repl
                (before ++ (c :: cs).take ((ts.map PAtom.lit).length + 1))
                (cs.drop (ts.map PAtom.lit).length) from by
          simp only [jsReplaceFuel]
          rw [if_pos (by rw [hmp]; exact hpre)]]
        rw [show replaceAllLitFuel (f + 1) t0 ts repl (c :: cs) =
            repl ++ replaceAllLitFuel f t0 ts repl (cs.drop ts.length) from by
          simp only [replaceAllLitFuel]
          rw [if_pos hpre]]
        rw [expandRepl_no_dollar _ _ _ _ hd, List.length_map, ih _ _ _ _ _ hd]
      · rw [show jsReplaceFuel (f + 1) (.lit t0) (ts.map PAtom.lit) repl before (c :: cs) =
            c :: jsReplaceFuel f (.lit t0) (ts.map PAtom.lit) repl (before ++ [c]) cs from by
          simp only [jsReplaceFuel]
          rw [if_neg (by rw [hmp]; exact hpre)]]
        rw [show replaceAllLitFuel (f + 1) t0 ts repl (c :: cs) =
            c :: replaceAllLitFuel f t0 ts repl cs from by
          simp only [replaceAllLitFuel]
          rw [if_neg hpre]]
        rw [ih _ _ _ _ _ hd]

theorem compileName_plain :
    ∀ (name : String), (∀ c ∈ name.toList, regexSpecials.contains c = false) →
      compileName name = some (name.toList.map PAtom.lit) := by
  have haux : ∀ (cs : List Char), (∀ c ∈ cs, regexSpecials.contains c = false) →
      cs.mapM compileChar = some (cs.map PAtom.lit) := by
    intro cs
    induction cs with
    | nil => intro _; rfl
    | cons c rest ih =>
      intro h
      have hc := h c (List.mem_cons_self c rest)
      have hdot : c ≠ '.' := by
        intro hh
        subst hh
        exact absurd hc (by decide)
      have hcc : compileChar c = some (PAtom.lit c) := by
        unfold compileChar
        rw [if_neg hdot, if_neg (by rw [hc]; exact Bool.false_ne_true)]
      rw [List.mapM_cons, hcc, ih (fun d hd => h d (List.mem_cons_of_mem _ hd))]
      rfl
  intro name h
  exact haux name.toList h

theorem jsReplaceAll_lit_token (name repl s : String) (hd : '$' ∉ repl.toList) :
    jsReplaceAll (patOfName (name.toList.map PAtom.lit)) repl s =
      replaceAllLit (placeholderToken name) repl s := by
  have hpat : patOfName (name.toList.map PAtom.lit) =
      PAtom.lit '{' :: (('{' :: (name.toList ++ ['}', '}'])).map PAtom.lit) := by
    simp [patOfName]
  calc jsReplaceAll (patOfName (name.toList.map PAtom.lit)) repl s
      = String.mk (jsReplaceFuel s.toList.length (.lit '{')
          (('{' :: (name.toList ++ ['}', '}'])).map PAtom.lit) repl.toList [] s.toList) := by
        rw [hpat]
        rfl
    _ = String.mk (replaceAllLitFuel s.toList.length '{'
          ('{' :: (name.toList ++ ['}', '}'])) repl.toList s.toList) := by
        rw [jsReplaceFuel_lit s.toList.length '{' ('{' :: (name.toList ++ ['}', '}']))
          repl.toList [] s.toList hd]
    _ = replaceAllLit (placeholderToken name) repl s := rfl

/-- C1 fails as stated: with the extracted field list of the content
`"\x7b\x7ba.b\x7d\x7d \x7b\x7baxb\x7d\x7d"` and the cursor on the field `"a.b"`,
submitting `"V"` rewrites the content to `"V V"` — the unrelated text
`"\x7b\x7baxb\x7d\x7d"` is changed too, because the dot of the field name is spliced
into the regular expression and matches any character — whereas replacing
only the occurrences of the literal placeholder token leaves it unchanged. -/
theorem submit_literal_replacement_counterexample :
    extractFieldsNeedingInput "\x7b\x7ba.b\x7d\x7d \x7b\x7baxb\x7d\x7d" = ["a.b", "axb"] ∧
    (handleSubmitField
        ⟨"\x7b\x7ba.b\x7d\x7d \x7b\x7baxb\x7d\x7d", ["a.b", "axb"], 0, [], [], false, false⟩
        "V").content = "V V" ∧
    replaceAllLit (placeholderToken "a.b") "V" "\x7b\x7ba.b\x7d\x7d \x7b\x7baxb\x7d\x7d" =
      "V \x7b\x7baxb\x7d\x7d" ∧
    (handleSubmitField
        ⟨"\x7b\x7ba.b\x7d\x7d \x7b\x7baxb\x7d\x7d", ["a.b", "axb"], 0, [], [], false, false⟩
        "V").content ≠
      replaceAllLit (placeholderToken "a.b") "V" "\x7b\x7ba.b\x7d\x7d \x7b\x7baxb\x7d\x7d" := by
  refine ⟨by decide, by decide, by decide, by decide⟩

/-- C1 (amended): for a field name without regex metacharacters and a value
without `$` (the replacement string is spliced raw into
`String.prototype.replace`), submitting a value whose trim is non-empty with
the cursor on that field replaces every occurrence of the literal
placeholder token by the value, posts the new content exactly when the old
content was non-empty, appends exactly the one combined turn carrying the
value and the generated acknowledgment, and advances the cursor by one. -/
theorem submit_replaces_literal_token (s : FFState) (value : String)
    (hcur : s.cursor < s.fields.length) (hv : jsTrim value ≠ "")
    (hplain : ∀ c ∈ (s.fields.getD s.cursor "").toList, regexSpecials.contains c = false)
    (hdollar : '$' ∉ value.toList) :
    handleSubmitField s value =
      { s with
        content := replaceAllLit (placeholderToken (s.fields.getD s.cursor "")) value s.content
        saves := s.saves ++ (if s.content = "" then []
          else [replaceAllLit (placeholderToken (s.fields.getD s.cursor "")) value s.content])
        turns := s.turns ++
          [submitTurn (s.fields.getD s.cursor "") value s.cursor s.fields.length]
        cursor := s.cursor + 1 } := by
  have hvne : value ≠ "" := by
    intro h
    subst h
    exact hv rfl
  unfold handleSubmitField
  rw [if_pos (And.intro hcur hv)]
  unfold updateArtifactContent
  by_cases hc : s.content = ""
  · rw [if_pos hc]
    have hre : replaceAllLit (placeholderToken (s.fields.getD s.cursor "")) value s.content
        = s.content := by
      rw [hc]
      rfl
    rw [hre, if_pos hc]
    simp
  · rw [if_neg hc, compileName_plain _ hplain]
    simp only
    rw [if_neg hvne, jsReplaceAll_lit_token _ _ _ hdollar, if_neg hc]
    simp

/-- Witness for `submit_replaces_literal_token` on the Brand/Season example:
submitting "Nike" on the field `Brand` rewrites the content to
`"## Brand\nNike\n\n## Season\n\x7b\x7bSeason\x7d\x7d"`. -/
theorem submit_replaces_literal_token_witness :
    handleSubmitField
        ⟨"## Brand\n\x7b\x7bBrand\x7d\x7d\n\n## Season\n\x7b\x7bSeason\x7d\x7d",
          ["Brand", "Season"], 0, [], [], false, false⟩ "Nike" =
      { FFState.mk "## Brand\n\x7b\x7bBrand\x7d\x7d\n\n## Season\n\x7b\x7bSeason\x7d\x7d"
          ["Brand", "Season"] 0 [] [] false false with
        content := replaceAllLit (placeholderToken (["Brand", "Season"].getD 0 "")) "Nike"
          "## Brand\n\x7b\x7bBrand\x7d\x7d\n\n## Season\n\x7b\x7bSeason\x7d\x7d"
        saves := [] ++ (if "## Brand\n\x7b\x7bBrand\x7d\x7d\n\n## Season\n\x7b\x7bSeason\x7d\x7d" = "" then []
          else [replaceAllLit (placeholderToken (["Brand", "Season"].getD 0 "")) "Nike"
            "## Brand\n\x7b\x7bBrand\x7d\x7d\n\n## Season\n\x7b\x7bSeason\x7d\x7d"])
        turns := [] ++ [submitTurn (["Brand", "Season"].getD 0 "") "Nike" 0 ["Brand", "Season"].length]
        cursor := 0 + 1 } ∧
    (handleSubmitField
        ⟨"## Brand\n\x7b\x7bBrand\x7d\x7d\n\n## Season\n\x7b\x7bSeason\x7d\x7d",
          ["Brand", "Season"], 0, [], [], false, false⟩ "Nike").content =
      "## Brand\nNike\n\n## Season\n\x7b\x7bSeason\x7d\x7d" ∧
    extractFieldsNeedingInput "## Brand\n\x7b\x7bBrand\x7d\x7d\n\n## Season\n\x7b\x7bSeason\x7d\x7d" =
      ["Brand", "Season"] :=
  ⟨submit_replaces_literal_token _ "Nike" (by decide) (by decide) (by decide) (by decide),
    by decide, by decide⟩

/-- C5 fails as stated: with the extracted field list of the content
`"\x7b\x7bxy\x7d\x7d \x7b\x7bx.\x7d\x7d"` and the cursor on the field `"x."`, skipping
also rewrites the unrelated placeholder `"\x7b\x7bxy\x7d\x7d"` to the marker
(the dot of the field name matches any character in the spliced regex), so
the resulting content is not the content with only the occurrences of the
literal token `"\x7b\x7bx.\x7d\x7d"` replaced by the marker. -/
theorem skip_marker_replacement_counterexample :
    extractFieldsNeedingInput "\x7b\x7bxy\x7d\x7d \x7b\x7bx.\x7d\x7d" = ["xy", "x."] ∧
    (handleSkipField
        ⟨"\x7b\x7bxy\x7d\x7d \x7b\x7bx.\x7d\x7d", ["xy", "x."], 1, [], [], false, false⟩).content =
      "[x. - Not Provided] [x. - Not Provided]" ∧
    replaceAllLit (placeholderToken "x.") (notProvidedMarker "x.")
        "\x7b\x7bxy\x7d\x7d \x7b\x7bx.\x7d\x7d" =
      "\x7b\x7bxy\x7d\x7d [x. - Not Provided]" ∧
    (handleSkipField
        ⟨"\x7b\x7bxy\x7d\x7d \x7b\x7bx.\x7d\x7d", ["xy", "x."], 1, [], [], false, false⟩).content ≠
      replaceAllLit (placeholderToken "x.") (notProvidedMarker "x.")
        "\x7b\x7bxy\x7d\x7d \x7b\x7bx.\x7d\x7d" := by
  refine ⟨by decide, by decide, by decide, by decide⟩

/-- C5 (amended): for a current field name without regex metacharacters,
skipping in an Active state replaces every occurrence of the literal
placeholder token by the fixed not-provided marker (never a user value),
posts the new content exactly when the old content was non-empty, appends
the one combined skip turn, and advances the cursor by one; and for the
field "Measurements" the skip-flavoured acknowledgment differs from the
submit-flavoured one at every value and position. -/
theorem skip_replaces_with_marker (s : FFState)
    (hcur : s.cursor < s.fields.length)
    (hplain : ∀ c ∈ (s.fields.getD s.cursor "").toList, regexSpecials.contains c = false) :
    handleSkipField s =
      { s with
        content := replaceAllLit (placeholderToken (s.fields.getD s.cursor ""))
          (notProvidedMarker (s.fields.getD s.cursor "")) s.content
        saves := s.saves ++ (if s.content = "" then []
          else [replaceAllLit (placeholderToken (s.fields.getD s.cursor ""))
            (notProvidedMarker (s.fields.getD s.cursor "")) s.content])
        turns := s.turns ++ [skipTurn (s.fields.getD s.cursor "") s.cursor s.fields.length]
        cursor := s.cursor + 1 } ∧
    (∀ (v : String) (i n : Nat),
      getAcknowledgmentMessage "Measurements" "" i n true ≠
        getAcknowledgmentMessage "Measurements" v i n false) := by
  constructor
  · have hmd : '$' ∉ (notProvidedMarker (s.fields.getD s.cursor "")).toList := by
      intro hmem
      rw [show (notProvidedMarker (s.fields.getD s.cursor "")).toList =
          '[' :: ((s.fields.getD s.cursor "").toList ++ " - Not Provided]".toList) from rfl]
        at hmem
      rcases List.mem_cons.mp hmem with h | h
      · exact absurd h (by decide)
      · rcases List.mem_append.mp h with h | h
        · exact absurd (hplain '$' h) (by decide)
        · exact absurd h (by decide)
    unfold handleSkipField
    rw [if_pos hcur]
    unfold updateArtifactContent
    by_cases hc : s.content = ""
    · rw [if_pos hc]
      have hre : replaceAllLit (placeholderToken (s.fields.getD s.cursor ""))
          (notProvidedMarker (s.fields.getD s.cursor "")) s.content = s.content := by
        rw [hc]
        rfl
      rw [hre, if_pos hc]
      simp
    · rw [if_neg hc, compileName_plain _ hplain]
      simp only [if_true]
      rw [jsReplaceAll_lit_token _ _ _ hmd, if_neg hc]
  · intro v i n h
    have h1 : (getAcknowledgmentMessage "Measurements" "" i n true).data.head? = some 'N' := rfl
    have h2 : (getAcknowledgmentMessage "Measurements" v i n false).data.head? = some 'I' := rfl
    rw [h, h2] at h1
    exact absurd h1 (by decide)

/-- Witness for `skip_replaces_with_marker` on the Measurements example:
skipping replaces the placeholder by `"[Measurements - Not Provided]"`. -/
theorem skip_replaces_with_marker_witness :
    (handleSkipField
        ⟨"## Measurements\n\x7b\x7bMeasurements\x7d\x7d", ["Measurements"], 0, [], [], false, false⟩ =
      { FFState.mk "## Measurements\n\x7b\x7bMeasurements\x7d\x7d" ["Measurements"] 0 [] [] false false with
        content := replaceAllLit (placeholderToken (["Measurements"].getD 0 ""))
          (notProvidedMarker (["Measurements"].getD 0 ""))
          "## Measurements\n\x7b\x7bMeasurements\x7d\x7d"
        saves := [] ++ (if "## Measurements\n\x7b\x7bMeasurements\x7d\x7d" = "" then []
          else [replaceAllLit (placeholderToken (["Measurements"].getD 0 ""))
            (notProvidedMarker (["Measurements"].getD 0 ""))
            "## Measurements\n\x7b\x7bMeasurements\x7d\x7d"])
        turns := [] ++ [skipTurn (["Measurements"].getD 0 "") 0 ["Measurements"].length]
        cursor := 0 + 1 } ∧
    (∀ (v : String) (i n : Nat),
      getAcknowledgmentMessage "Measurements" "" i n true ≠
        getAcknowledgmentMessage "Measurements" v i n false)) ∧
    (handleSkipField
        ⟨"## Measurements\n\x7b\x7bMeasurements\x7d\x7d", ["Measurements"], 0, [], [], false,
          false⟩).content = "## Measurements\n[Measurements - Not Provided]" :=
  ⟨skip_replaces_with_marker _ (by decide) (by decide), by decide⟩

set_option maxRecDepth 4000 in
/-- C6 fails as stated: a single delta of 420 characters takes the
accumulated length from 0 into the open interval (400, 450) while the status
is "streaming", yet the draft does not become visible, because the source
checks the length accumulated before appending the incoming delta. -/
theorem visibility_enter_window_counterexample :
    400 < (applyParts ⟨"", false, "streaming"⟩
      [.textDelta (String.mk (List.replicate 420 'a'))]).content.length ∧
    (applyParts ⟨"", false, "streaming"⟩
      [.textDelta (String.mk (List.replicate 420 'a'))]).content.length < 450 ∧
    (applyParts ⟨"", false, "streaming"⟩
      [.textDelta (String.mk (List.replicate 420 'a'))]).status = "streaming" ∧
    (applyParts ⟨"", false, "streaming"⟩
      [.textDelta (String.mk (List.replicate 420 'a'))]).isVisible = false := by
  refine ⟨by decide, by decide, by decide, by decide⟩

/-- C6 (amended): once the visibility flag is true no later stream part ever
clears it; and, from a streaming state, the final visibility equals the
initial one joined with the trigger "some text delta arrives while the
length accumulated so far (before that delta is appended) lies strictly
between 400 and 450" — so the flag is set at the first such arrival and not
before. -/
theorem visibility_window_characterization (a : UIArtifact) (ps : List StreamPart) :
    (a.isVisible = true → (applyParts a ps).isVisible = true) ∧
    (a.status = "streaming" →
      (applyParts a ps).isVisible = (a.isVisible || entersWindow a.content.length ps)) := by
  have hstep : ∀ (b : UIArtifact) (p : StreamPart), b.isVisible = true →
      (onStreamPart b p).isVisible = true := by
    intro b p hb
    cases p with
    | suggestion => exact hb
    | textDelta d =>
      simp only [onStreamPart]
      split
      · rfl
      · exact hb
  constructor
  · induction ps generalizing a with
    | nil => exact fun h => h
    | cons p ps ih =>
      intro hv
      exact ih (onStreamPart a p) (hstep a p hv)
  · induction ps generalizing a with
    | nil =>
      intro _
      simp [applyParts, entersWindow]
    | cons p ps ih =>
      intro hst
      cases p with
      | suggestion =>
        have h := ih a hst
        exact h
      | textDelta d =>
        have hst' : (onStreamPart a (.textDelta d)).status = "streaming" := rfl
        have hIH := ih (onStreamPart a (.textDelta d)) hst'
        show (applyParts (onStreamPart a (.textDelta d)) ps).isVisible = _
        rw [hIH]
        have hlen : (onStreamPart a (.textDelta d)).content.length =
            a.content.length + d.length := by
          simp [onStreamPart, String.length_append]
        rw [hlen]
        by_cases hw : a.content.length > 400 ∧ a.content.length < 450
        · have hv1 : (onStreamPart a (.textDelta d)).isVisible = true := by
            simp [onStreamPart, hst, hw.1, hw.2]
          have hb1 : (400 < a.content.length && a.content.length < 450) = true := by
            simp [hw.1, hw.2]
          rw [hv1]
          show true = (a.isVisible || entersWindow a.content.length (.textDelta d :: ps))
          show true = (a.isVisible || ((400 < a.content.length && a.content.length < 450) ||
            entersWindow (a.content.length + d.length) ps))
          rw [hb1]
          simp
        · have hcond : ¬(a.status = "streaming" ∧ a.content.length > 400 ∧
              a.content.length < 450) := fun hh => hw ⟨hh.2.1, hh.2.2⟩
          have hv1 : (onStreamPart a (.textDelta d)).isVisible = a.isVisible := by
            simp only [onStreamPart]
            rw [if_neg hcond]
          have hb1 : (400 < a.content.length && a.content.length < 450) = false := by
            rw [Bool.eq_false_iff]
            intro hh
            simp only [Bool.and_eq_true, decide_eq_true_eq] at hh
            exact hw hh
          rw [hv1]
          show _ = (a.isVisible || ((400 < a.content.length && a.content.length < 450) ||
            entersWindow (a.content.length + d.length) ps))
          rw [hb1]
          simp

/-- C7 fails as stated: twelve paragraph lines in the bill-of-materials
section each split into two parts, and all twelve become rows — the 11-row
cap applies only to list items, not to collected paragraph lines. -/
theorem bom_row_cap_counterexample :
    (extractBomItems (DocElem.heading "Bill of Materials" ::
      List.replicate 12 (DocElem.para "a,b"))).length = 12 ∧
    ¬((extractBomItems (DocElem.heading "Bill of Materials" ::
      List.replicate 12 (DocElem.para "a,b"))).length ≤ 11) := by
  refine ⟨by decide, by decide⟩

/-- C7 (amended): every collected line is split on ";" when the line
contains a semicolon and otherwise on ",", with every part trimmed and up to
six parts assigned positionally with empty-string defaults; rows recovered
from a list are capped at 11 per list, while collected paragraph lines are
not capped; and the line "Cotton, 100%;Blue" yields
item "Cotton, 100%", description "Blue" and the remaining fields empty. -/
theorem bom_split_and_list_cap (line : String) (items : List String) (rest : List DocElem) :
    splitBomLine line = specSplitBomParts line ∧
    bomWalk (DocElem.bullets items :: rest) =
      (items.take 11).map (fun t => bomRowOfParts (splitBomLine (jsTrim t))) ∧
    (bomWalk (DocElem.bullets items :: rest)).length ≤ 11 ∧
    splitBomLine "Cotton, 100%;Blue" = ["Cotton, 100%", "Blue"] ∧
    bomRowOfParts (splitBomLine "Cotton, 100%;Blue") =
      ⟨"Cotton, 100%", "Blue", "", "", "", ""⟩ := by
  refine ⟨?_, rfl, ?_, by decide, by decide⟩
  · by_cases h : jsIncludes line ";" = true <;> simp [splitBomLine, specSplitBomParts, h]
  · rw [show bomWalk (DocElem.bullets items :: rest) =
      (items.take 11).map (fun t => bomRowOfParts (splitBomLine (jsTrim t))) from rfl]
    rw [List.length_map, List.length_take]
    omega
